import Mathlib

/-!
Shallow embedding of the `strength_reduce` crate (src/lib.rs).

The crate provides, for each unsigned width w ∈ {8, 16, 32, 64} (and a
pointer-sized alias of one of those), a record of (multiplier, divisor,
shift_value) built by `new`, and division / remainder / div_rem operators
implemented as widening multiply followed by shifts.

Two Rust macros generate the code:
  * `strength_reduced_impl` (u8, u16): the multiplier is narrowed back to the
    target width; evaluation is one widening multiply and one shift by
    `shift_value = trailing_zeros + bit_width - 1`.
  * `strength_reduced_impl_intermediate_multiplier` (u32, u64): the multiplier
    is kept at the intermediate (double) width; evaluation shifts the widened
    product right by `bit_width`, narrows, then shifts by
    `shift_value = trailing_zeros - 1`.

Machine integers are modelled as `Nat` with an explicit `% 2 ^ width` at every
narrowing cast, an explicit `% 2 ^ (2 * w)` where the source computes in the
intermediate (double-width) type, and two's-complement wrapping for the
subtraction `numerator - quotient * divisor` (which is exactly where this
snapshot of the code can underflow; release builds wrap, debug builds abort).
The fallible constructor (`assert!(divisor > 0)`) is modelled as `Option`.
-/

/-- Fuel-driven core of Rust's `next_power_of_two`: starting from `power`,
keep doubling while `power < n`. Structural recursion on the fuel so that the
kernel can evaluate it. -/
def nextPow2Aux : Nat → Nat → Nat → Nat
  | 0, power, _ => power
  | fuel + 1, power, n => if power < n then nextPow2Aux fuel (power * 2) n else power

/-- Rust's `next_power_of_two`: the least power of two that is ≥ `n`
(and 1 for `n ≤ 1`). `n` itself is more than enough fuel since doubling from 1
reaches `2 ^ n > n` within `n` steps. -/
def nextPowerOfTwo (n : Nat) : Nat := nextPow2Aux n 1 n

/-- Fuel-driven core of Rust's `trailing_zeros`, counting factors of two.
Only ever applied to powers of two here, where the fuel `n` is ample. -/
def trailingZerosAux : Nat → Nat → Nat
  | 0, _ => 0
  | fuel + 1, n => if n % 2 = 1 ∨ n = 0 then 0 else trailingZerosAux fuel (n / 2) + 1

/-- Rust's `trailing_zeros` on a positive value (the source only calls it on
`next_power_of_two` results, which are positive powers of two). -/
def trailingZeros (n : Nat) : Nat := trailingZerosAux n n

/-- The record generated by both Rust macros: `multiplier`, `divisor`,
`shift_value`. In the first macro `multiplier` is a target-width value, in the
second an intermediate-width value; both are `Nat` here, with the width
discipline kept by the operations' explicit reductions. `shift_value` is a
`u8` in the source; its stored values (at most `2 * w - 1 ≤ 127`) never wrap. -/
structure StrengthReduced where
  multiplier : Nat
  divisor : Nat
  shift_value : Nat
deriving Repr, DecidableEq

/-- Constructor of the `strength_reduced_impl` macro (u8/u16 variant), width
`w`. `assert!(divisor > 0)` becomes `none` on divisor 0. For `divisor = 1` the
stored triple is `(1, divisor, 0)`. Otherwise, with
`trailing_zeros = next_power_of_two(divisor).trailing_zeros()` and
`shift_size = trailing_zeros + w - 1`, the multiplier is
`((1 << shift_size) + divisor - 1) / divisor` computed in the intermediate
type (hence the `% 2 ^ (2 * w)` on the shift) and then cast to the target
width (the final `% 2 ^ w`). -/
def SRImpl.new (w d : Nat) : Option StrengthReduced :=
  if d = 0 then none
  else if d = 1 then some ⟨1, d, 0⟩
  else some ⟨(2 ^ (trailingZeros (nextPowerOfTwo d) + w - 1) % 2 ^ (2 * w) + d - 1) / d % 2 ^ w,
             d,
             trailingZeros (nextPowerOfTwo d) + w - 1⟩

/-- Division of the `strength_reduced_impl` macro: widen the numerator and the
multiplier to the intermediate type, multiply, shift right by `shift_value`,
narrow back to the target width. -/
def SRImpl.div (w numerator : Nat) (rhs : StrengthReduced) : Nat :=
  ((numerator * rhs.multiplier % 2 ^ (2 * w)) >>> rhs.shift_value) % 2 ^ w

/-- Remainder of the `strength_reduced_impl` macro:
`self - quotient * rhs.divisor`, all in the target width; the multiply and the
subtraction wrap modulo `2 ^ w` (two's-complement release semantics). -/
def SRImpl.rem (w numerator : Nat) (rhs : StrengthReduced) : Nat :=
  (2 ^ w + numerator - SRImpl.div w numerator rhs * rhs.divisor % 2 ^ w) % 2 ^ w

/-- Simultaneous division and remainder of the `strength_reduced_impl` macro:
one division, then `remainder = numerator - quotient * denom.divisor`. -/
def SRImpl.div_rem (w numerator : Nat) (denom : StrengthReduced) : Nat × Nat :=
  (SRImpl.div w numerator denom,
   (2 ^ w + numerator - SRImpl.div w numerator denom * denom.divisor % 2 ^ w) % 2 ^ w)

/-- Accessor of the `strength_reduced_impl` macro: the stored divisor. -/
def SRImpl.get (rd : StrengthReduced) : Nat := rd.divisor

/-- Constructor of the `strength_reduced_impl_intermediate_multiplier` macro
(u32/u64 variant), width `w`. For `divisor = 1` the multiplier is
`1 << bit_width` in the intermediate type. Otherwise the multiplier
`((1 << (trailing_zeros + w - 1)) + divisor - 1) / divisor` is kept at the
intermediate width, and `shift_value = trailing_zeros - 1`. -/
def SRImplWide.new (w d : Nat) : Option StrengthReduced :=
  if d = 0 then none
  else if d = 1 then some ⟨2 ^ w % 2 ^ (2 * w), d, 0⟩
  else some ⟨(2 ^ (trailingZeros (nextPowerOfTwo d) + w - 1) % 2 ^ (2 * w) + d - 1) / d,
             d,
             trailingZeros (nextPowerOfTwo d) - 1⟩

/-- Division of the `strength_reduced_impl_intermediate_multiplier` macro:
widen the numerator, multiply by the intermediate-width multiplier, shift
right by the full bit width, narrow to the target width, then shift right by
`shift_value`. -/
def SRImplWide.div (w numerator : Nat) (rhs : StrengthReduced) : Nat :=
  (((numerator * rhs.multiplier % 2 ^ (2 * w)) >>> w) % 2 ^ w) >>> rhs.shift_value

/-- Remainder of the `strength_reduced_impl_intermediate_multiplier` macro,
same shape as the narrow variant but using its own division. -/
def SRImplWide.rem (w numerator : Nat) (rhs : StrengthReduced) : Nat :=
  (2 ^ w + numerator - SRImplWide.div w numerator rhs * rhs.divisor % 2 ^ w) % 2 ^ w

/-- Simultaneous division and remainder of the
`strength_reduced_impl_intermediate_multiplier` macro. -/
def SRImplWide.div_rem (w numerator : Nat) (denom : StrengthReduced) : Nat × Nat :=
  (SRImplWide.div w numerator denom,
   (2 ^ w + numerator - SRImplWide.div w numerator denom * denom.divisor % 2 ^ w) % 2 ^ w)

/-- Accessor of the `strength_reduced_impl_intermediate_multiplier` macro. -/
def SRImplWide.get (rd : StrengthReduced) : Nat := rd.divisor

/-- Width instantiation `strength_reduced_impl!(StrengthReducedU8, u8, u16, 8)`. -/
def StrengthReducedU8.new (divisor : Nat) : Option StrengthReduced := SRImpl.new 8 divisor

/-- Division for `StrengthReducedU8`. -/
def StrengthReducedU8.div (numerator : Nat) (rhs : StrengthReduced) : Nat := SRImpl.div 8 numerator rhs

/-- Remainder for `StrengthReducedU8`. -/
def StrengthReducedU8.rem (numerator : Nat) (rhs : StrengthReduced) : Nat := SRImpl.rem 8 numerator rhs

/-- Combined div_rem for `StrengthReducedU8`. -/
def StrengthReducedU8.div_rem (numerator : Nat) (denom : StrengthReduced) : Nat × Nat := SRImpl.div_rem 8 numerator denom

/-- Width instantiation `strength_reduced_impl!(StrengthReducedU16, u16, u32, 16)`. -/
def StrengthReducedU16.new (divisor : Nat) : Option StrengthReduced := SRImpl.new 16 divisor

/-- Division for `StrengthReducedU16`. -/
def StrengthReducedU16.div (numerator : Nat) (rhs : StrengthReduced) : Nat := SRImpl.div 16 numerator rhs

/-- Remainder for `StrengthReducedU16`. -/
def StrengthReducedU16.rem (numerator : Nat) (rhs : StrengthReduced) : Nat := SRImpl.rem 16 numerator rhs

/-- Combined div_rem for `StrengthReducedU16`. -/
def StrengthReducedU16.div_rem (numerator : Nat) (denom : StrengthReduced) : Nat × Nat := SRImpl.div_rem 16 numerator denom

/-- Width instantiation `strength_reduced_impl_intermediate_multiplier!(StrengthReducedU32, u32, u64, 32)`. -/
def StrengthReducedU32.new (divisor : Nat) : Option StrengthReduced := SRImplWide.new 32 divisor

/-- Division for `StrengthReducedU32`. -/
def StrengthReducedU32.div (numerator : Nat) (rhs : StrengthReduced) : Nat := SRImplWide.div 32 numerator rhs

/-- Remainder for `StrengthReducedU32`. -/
def StrengthReducedU32.rem (numerator : Nat) (rhs : StrengthReduced) : Nat := SRImplWide.rem 32 numerator rhs

/-- Combined div_rem for `StrengthReducedU32`. -/
def StrengthReducedU32.div_rem (numerator : Nat) (denom : StrengthReduced) : Nat × Nat := SRImplWide.div_rem 32 numerator denom

/-- Width instantiation `strength_reduced_impl_intermediate_multiplier!(StrengthReducedU64, u64, u128, 64)`. -/
def StrengthReducedU64.new (divisor : Nat) : Option StrengthReduced := SRImplWide.new 64 divisor

/-- Division for `StrengthReducedU64`. -/
def StrengthReducedU64.div (numerator : Nat) (rhs : StrengthReduced) : Nat := SRImplWide.div 64 numerator rhs

/-- Remainder for `StrengthReducedU64`. -/
def StrengthReducedU64.rem (numerator : Nat) (rhs : StrengthReduced) : Nat := SRImplWide.rem 64 numerator rhs

/-- Combined div_rem for `StrengthReducedU64`. -/
def StrengthReducedU64.div_rem (numerator : Nat) (denom : StrengthReduced) : Nat × Nat := SRImplWide.div_rem 64 numerator denom

/-- Specification of the doubling loop: starting from a power of two `2 ^ i`
with enough fuel, the result is a power of two that is ≥ `n` and, unless it is
the starting value `1`, whose half is < `n`. -/
lemma nextPow2Aux_spec (fuel : Nat) : ∀ i n : Nat, n ≤ 2 ^ i * 2 ^ fuel →
    (i = 0 ∨ 2 ^ (i - 1) < n) →
    ∃ k, nextPow2Aux fuel (2 ^ i) n = 2 ^ k ∧ n ≤ 2 ^ k ∧ (k = 0 ∨ 2 ^ (k - 1) < n) := by
  induction fuel with
  | zero =>
    intro i n hbound hside
    exact ⟨i, rfl, by simpa using hbound, hside⟩
  | succ fuel ih =>
    intro i n hbound hside
    by_cases hlt : 2 ^ i < n
    · have hstep : nextPow2Aux (fuel + 1) (2 ^ i) n = nextPow2Aux fuel (2 ^ i * 2) n := by
        simp [nextPow2Aux, hlt]
      have hpow : (2 : Nat) ^ i * 2 = 2 ^ (i + 1) := (pow_succ 2 i).symm
      rw [hstep, hpow]
      refine ih (i + 1) n ?_ (Or.inr (by simpa using hlt))
      calc n ≤ 2 ^ i * 2 ^ (fuel + 1) := hbound
        _ = 2 ^ (i + 1) * 2 ^ fuel := by ring
    · have hstep : nextPow2Aux (fuel + 1) (2 ^ i) n = 2 ^ i := by
        simp [nextPow2Aux, hlt]
      exact ⟨i, hstep, Nat.le_of_not_lt hlt, hside⟩

/-- Characterisation of `nextPowerOfTwo` on positive inputs: it returns a
power of two `2 ^ k` with `n ≤ 2 ^ k`, and `2 ^ (k - 1) < n` unless `k = 0`. -/
lemma nextPowerOfTwo_spec (n : Nat) :
    ∃ k, nextPowerOfTwo n = 2 ^ k ∧ n ≤ 2 ^ k ∧ (k = 0 ∨ 2 ^ (k - 1) < n) := by
  have h := nextPow2Aux_spec n 0 n (by simpa using Nat.le_of_lt (Nat.lt_two_pow n)) (Or.inl rfl)
  simpa [nextPowerOfTwo] using h

/-- The counting loop applied to a power of two returns the exponent, given
at least `k` fuel. -/
lemma trailingZerosAux_pow2 : ∀ k fuel : Nat, k ≤ fuel → trailingZerosAux fuel (2 ^ k) = k := by
  intro k
  induction k with
  | zero =>
    intro fuel _
    cases fuel <;> simp [trailingZerosAux]
  | succ k ih =>
    intro fuel hk
    match fuel, hk with
    | fuel + 1, hk =>
      have hmod : (2 : Nat) ^ (k + 1) % 2 = 0 := by
        rw [pow_succ]; exact Nat.mul_mod_left _ _
      have hcond : ¬((2 : Nat) ^ (k + 1) % 2 = 1 ∨ (2 : Nat) ^ (k + 1) = 0) := by
        push_neg
        have hpos : 0 < (2 : Nat) ^ (k + 1) := Nat.pos_pow_of_pos _ (by norm_num)
        omega
      have hdiv : (2 : Nat) ^ (k + 1) / 2 = 2 ^ k := by
        rw [pow_succ]; exact Nat.mul_div_cancel _ (by norm_num)
      have : trailingZerosAux (fuel + 1) (2 ^ (k + 1)) = trailingZerosAux fuel (2 ^ (k + 1) / 2) + 1 := by
        simp [trailingZerosAux, hcond]
      rw [this, hdiv, ih fuel (Nat.lt_succ_iff.mp hk)]

/-- For any exponent, `trailingZeros (2 ^ k) = k`. -/
lemma trailingZeros_pow2 (k : Nat) : trailingZeros (2 ^ k) = k :=
  trailingZerosAux_pow2 k (2 ^ k) (Nat.le_of_lt (Nat.lt_two_pow k))

/-- The quantity `trailing_zeros = next_power_of_two(d).trailing_zeros()` of
the source is the ceiling of log₂ d: for `d ≥ 2` it is positive, its
predecessor power of two is strictly below `d`, and `d` is at most `2 ^` it. -/
lemma ceilLog2_spec (d : Nat) (hd : 2 ≤ d) :
    1 ≤ trailingZeros (nextPowerOfTwo d) ∧
    2 ^ (trailingZeros (nextPowerOfTwo d) - 1) < d ∧
    d ≤ 2 ^ trailingZeros (nextPowerOfTwo d) := by
  obtain ⟨k, hk, hle, hside⟩ := nextPowerOfTwo_spec d
  rw [hk, trailingZeros_pow2]
  have hk1 : 1 ≤ k := by
    rcases Nat.eq_zero_or_pos k with h0 | h1
    · subst h0; simp at hle; omega
    · exact h1
  rcases hside with h0 | hlt
  · omega
  · exact ⟨hk1, hlt, hle⟩

/-- Right shift on `Nat` is division by the corresponding power of two. -/
lemma shiftRight_eq_div (x k : Nat) : x >>> k = x / 2 ^ k :=
  Nat.shiftRight_eq_div_pow x k

/-- Evaluation of the narrow-variant division at divisor 1: the stored triple
is (1, 1, 0), so the two reductions and the zero shift leave `n` unchanged. -/
lemma SRImpl_div_one (w n : Nat) (hn : n < 2 ^ w) : SRImpl.div w n ⟨1, 1, 0⟩ = n := by
  have hle : (2 : Nat) ^ w ≤ 2 ^ (2 * w) := Nat.pow_le_pow_right (by norm_num) (by omega)
  have hn2 : n < 2 ^ (2 * w) := lt_of_lt_of_le hn hle
  simp [SRImpl.div, Nat.mod_eq_of_lt hn2, Nat.mod_eq_of_lt hn, Nat.shiftRight_zero]

/-- Evaluation of the narrow-variant remainder at divisor 1. -/
lemma SRImpl_rem_one (w n : Nat) (hn : n < 2 ^ w) : SRImpl.rem w n ⟨1, 1, 0⟩ = 0 := by
  have hdiv := SRImpl_div_one w n hn
  simp [SRImpl.rem, hdiv, Nat.mod_eq_of_lt hn]

/-- Evaluation of the wide-variant division at divisor 1: the stored
multiplier is `1 << w`, so shifting the product back by `w` returns `n`. -/
lemma SRImplWide_div_one (w n : Nat) (hw : 1 ≤ w) (hn : n < 2 ^ w) :
    SRImplWide.div w n ⟨2 ^ w % 2 ^ (2 * w), 1, 0⟩ = n := by
  have h2w : (0 : Nat) < 2 ^ w := Nat.pos_pow_of_pos _ (by norm_num)
  have hsq : (2 : Nat) ^ (2 * w) = 2 ^ w * 2 ^ w := by rw [two_mul, pow_add]
  have h2le : (2 : Nat) ≤ 2 ^ w := by
    calc (2 : Nat) = 2 ^ 1 := (pow_one 2).symm
      _ ≤ 2 ^ w := Nat.pow_le_pow_right (by norm_num) hw
  have hlt : (2 : Nat) ^ w < 2 ^ (2 * w) := by
    rw [hsq]
    calc (2 : Nat) ^ w = 1 * 2 ^ w := (one_mul _).symm
      _ < 2 ^ w * 2 ^ w := by
        exact Nat.mul_lt_mul_of_lt_of_le (by omega) (le_refl _) h2w
  have hm : (2 : Nat) ^ w % 2 ^ (2 * w) = 2 ^ w := Nat.mod_eq_of_lt hlt
  have hprod : n * 2 ^ w < 2 ^ (2 * w) := by
    rw [hsq]
    exact Nat.mul_lt_mul_of_lt_of_le hn (le_refl _) h2w
  show (((n * (2 ^ w % 2 ^ (2 * w)) % 2 ^ (2 * w)) >>> w) % 2 ^ w) >>> 0 = n
  rw [Nat.shiftRight_zero, hm, Nat.mod_eq_of_lt hprod, shiftRight_eq_div,
    Nat.mul_div_cancel n h2w, Nat.mod_eq_of_lt hn]

/-- Evaluation of the wide-variant remainder at divisor 1. -/
lemma SRImplWide_rem_one (w n : Nat) (hw : 1 ≤ w) (hn : n < 2 ^ w) :
    SRImplWide.rem w n ⟨2 ^ w % 2 ^ (2 * w), 1, 0⟩ = 0 := by
  have hdiv := SRImplWide_div_one w n hw hn
  simp [SRImplWide.rem, hdiv, Nat.mod_eq_of_lt hn]

/-- C4: constructing with divisor 0 fails for every width and for both macro
variants: the modelled constructor returns no value at all. -/
theorem new_zero_divisor_fails (w : Nat) :
    SRImpl.new w 0 = none ∧ SRImplWide.new w 0 = none :=
  ⟨rfl, rfl⟩

/-- C10: for every width and every valid divisor, `get` on the constructed
value returns exactly the original divisor, in both macro variants. -/
theorem get_returns_divisor (w d : Nat) (rd rd' : StrengthReduced) (hd : 1 ≤ d)
    (h1 : SRImpl.new w d = some rd) (h2 : SRImplWide.new w d = some rd') :
    SRImpl.get rd = d ∧ SRImplWide.get rd' = d := by
  have h0 : ¬d = 0 := by omega
  simp only [SRImpl.new] at h1
  simp only [SRImplWide.new] at h2
  rw [if_neg h0] at h1 h2
  by_cases hd1 : d = 1
  · rw [if_pos hd1] at h1 h2
    injection h1 with h1e
    injection h2 with h2e
    subst h1e; subst h2e
    exact ⟨rfl, rfl⟩
  · rw [if_neg hd1] at h1 h2
    injection h1 with h1e
    injection h2 with h2e
    subst h1e; subst h2e
    exact ⟨rfl, rfl⟩

/-- Witness for `get_returns_divisor` at width 8, divisor 39. -/
theorem get_returns_divisor_witness :
    ((1 : Nat) ≤ 39 ∧ SRImpl.new 8 39 = some ⟨211, 39, 13⟩ ∧ SRImplWide.new 8 39 = some ⟨211, 39, 5⟩) ∧
    (SRImpl.get ⟨211, 39, 13⟩ = 39 ∧ SRImplWide.get ⟨211, 39, 5⟩ = 39) :=
  ⟨by decide, get_returns_divisor 8 39 ⟨211, 39, 13⟩ ⟨211, 39, 5⟩ (by decide) (by decide) (by decide)⟩

/-- C6: for every width, valid divisor and numerator, the combined `div_rem`
on the constructed value returns exactly the pair produced by the individual
division and remainder operators, in both macro variants. -/
theorem div_rem_agrees (w d n : Nat) (rd rd' : StrengthReduced) (_hd : 1 ≤ d)
    (_h1 : SRImpl.new w d = some rd) (_h2 : SRImplWide.new w d = some rd') :
    SRImpl.div_rem w n rd = (SRImpl.div w n rd, SRImpl.rem w n rd) ∧
    SRImplWide.div_rem w n rd' = (SRImplWide.div w n rd', SRImplWide.rem w n rd') :=
  ⟨rfl, rfl⟩

/-- Witness for `div_rem_agrees` at width 8, divisor 39, numerator 233. -/
theorem div_rem_agrees_witness :
    ((1 : Nat) ≤ 39 ∧ SRImpl.new 8 39 = some ⟨211, 39, 13⟩ ∧ SRImplWide.new 8 39 = some ⟨211, 39, 5⟩) ∧
    (SRImpl.div_rem 8 233 ⟨211, 39, 13⟩ = (SRImpl.div 8 233 ⟨211, 39, 13⟩, SRImpl.rem 8 233 ⟨211, 39, 13⟩) ∧
     SRImplWide.div_rem 8 233 ⟨211, 39, 5⟩ = (SRImplWide.div 8 233 ⟨211, 39, 5⟩, SRImplWide.rem 8 233 ⟨211, 39, 5⟩)) :=
  ⟨by decide, div_rem_agrees 8 39 233 ⟨211, 39, 13⟩ ⟨211, 39, 5⟩ (by decide) (by decide) (by decide)⟩

/-- C1: the equivalence property fails on this code: at width 16 the value
built from divisor 3827 divides numerator 49750 to 13 (remainder wrapping to
65535), while the naive truncating results are 12 and 3826. The width-8 pair
(39, 233) fails the same way. -/
theorem equivalence_fails_u16 :
    (StrengthReducedU16.new 3827).map
        (fun rd => (StrengthReducedU16.div 49750 rd, StrengthReducedU16.rem 49750 rd)) = some (13, 65535) ∧
    49750 / 3827 = 12 ∧ 49750 % 3827 = 3826 := by decide

/-- C2: at width 8, divisor 39, numerator 233, the spec (and the crate's own
spot test) expects quotient 5 and remainder 38, but the code produces quotient
6 and a remainder that wraps to 255. -/
theorem u8_spot_39_233 :
    (StrengthReducedU8.new 39).map
        (fun rd => (StrengthReducedU8.div 233 rd, StrengthReducedU8.rem 233 rd)) = some (6, 255) ∧
    233 / 39 = 5 ∧ 233 % 39 = 38 := by decide

/-- C3: the stored-field invariant fails: for the width-8 value built from
divisor 39, (233 * multiplier) >>> shift_value is 6, not the exact truncating
quotient 5, so the derived remainder identity fails as well. -/
theorem invariant_fails_u8 :
    (StrengthReducedU8.new 39).map (fun rd => (233 * rd.multiplier) >>> rd.shift_value) = some 6 ∧
    233 / 39 = 5 := by decide

/-- C9: in the remainder computation at width 8, divisor 39, numerator 233,
the product quotient * divisor is 234, which exceeds the numerator 233, so the
subtraction underflows and wraps modulo 2^8 to 255. -/
theorem rem_subtraction_wraps_u8 :
    (StrengthReducedU8.new 39).map
        (fun rd => (StrengthReducedU8.div 233 rd * rd.divisor, StrengthReducedU8.rem 233 rd)) = some (234, 255) ∧
    233 < 234 := by decide

/-- Monotone bound for the narrow-variant division: whenever the stored
multiplier is at most `2 ^ shift_value`, the computed quotient is at most the
numerator (reductions and shifts only ever shrink the product `n * m`). -/
lemma SRImpl_div_le (w n : Nat) (rd : StrengthReduced)
    (hm : rd.multiplier ≤ 2 ^ rd.shift_value) : SRImpl.div w n rd ≤ n := by
  have h2s : (0 : Nat) < 2 ^ rd.shift_value := Nat.pos_pow_of_pos _ (by norm_num)
  calc SRImpl.div w n rd
      = ((n * rd.multiplier % 2 ^ (2 * w)) >>> rd.shift_value) % 2 ^ w := rfl
    _ ≤ (n * rd.multiplier % 2 ^ (2 * w)) >>> rd.shift_value := Nat.mod_le _ _
    _ = (n * rd.multiplier % 2 ^ (2 * w)) / 2 ^ rd.shift_value := shiftRight_eq_div _ _
    _ ≤ n * rd.multiplier / 2 ^ rd.shift_value := Nat.div_le_div_right (Nat.mod_le _ _)
    _ ≤ n * 2 ^ rd.shift_value / 2 ^ rd.shift_value := Nat.div_le_div_right (Nat.mul_le_mul_left n hm)
    _ = n := Nat.mul_div_cancel n h2s

/-- Monotone bound for the wide-variant division: whenever the stored
multiplier is at most `2 ^ w`, the computed quotient is at most the
numerator. -/
lemma SRImplWide_div_le (w n : Nat) (rd : StrengthReduced)
    (hm : rd.multiplier ≤ 2 ^ w) : SRImplWide.div w n rd ≤ n := by
  have h2w : (0 : Nat) < 2 ^ w := Nat.pos_pow_of_pos _ (by norm_num)
  calc SRImplWide.div w n rd
      = (((n * rd.multiplier % 2 ^ (2 * w)) >>> w) % 2 ^ w) >>> rd.shift_value := rfl
    _ = (((n * rd.multiplier % 2 ^ (2 * w)) >>> w) % 2 ^ w) / 2 ^ rd.shift_value :=
        shiftRight_eq_div _ _
    _ ≤ ((n * rd.multiplier % 2 ^ (2 * w)) >>> w) % 2 ^ w := Nat.div_le_self _ _
    _ ≤ (n * rd.multiplier % 2 ^ (2 * w)) >>> w := Nat.mod_le _ _
    _ = (n * rd.multiplier % 2 ^ (2 * w)) / 2 ^ w := shiftRight_eq_div _ _
    _ ≤ n * rd.multiplier / 2 ^ w := Nat.div_le_div_right (Nat.mod_le _ _)
    _ ≤ n * 2 ^ w / 2 ^ w := Nat.div_le_div_right (Nat.mul_le_mul_left n hm)
    _ = n := Nat.mul_div_cancel n h2w

/-- C5: for every width and every representable numerator, dividing by the
value constructed from divisor 1 returns the numerator unchanged and the
remainder operator returns 0, in both macro variants. -/
theorem one_is_identity (w n : Nat) (rd rd' : StrengthReduced) (hw : 1 ≤ w) (hn : n < 2 ^ w)
    (h1 : SRImpl.new w 1 = some rd) (h2 : SRImplWide.new w 1 = some rd') :
    SRImpl.div w n rd = n ∧ SRImpl.rem w n rd = 0 ∧
    SRImplWide.div w n rd' = n ∧ SRImplWide.rem w n rd' = 0 := by
  rw [show SRImpl.new w 1 = some (⟨1, 1, 0⟩ : StrengthReduced) from rfl] at h1
  rw [show SRImplWide.new w 1 = some (⟨2 ^ w % 2 ^ (2 * w), 1, 0⟩ : StrengthReduced) from rfl] at h2
  injection h1 with h1e
  injection h2 with h2e
  subst h1e
  subst h2e
  exact ⟨SRImpl_div_one w n hn, SRImpl_rem_one w n hn,
         SRImplWide_div_one w n hw hn, SRImplWide_rem_one w n hw hn⟩

/-- Witness for `one_is_identity` at width 8, numerator 5. -/
theorem one_is_identity_witness :
    ((1 : Nat) ≤ 8 ∧ (5 : Nat) < 2 ^ 8 ∧ SRImpl.new 8 1 = some ⟨1, 1, 0⟩ ∧
      SRImplWide.new 8 1 = some ⟨256, 1, 0⟩) ∧
    (SRImpl.div 8 5 ⟨1, 1, 0⟩ = 5 ∧ SRImpl.rem 8 5 ⟨1, 1, 0⟩ = 0 ∧
     SRImplWide.div 8 5 ⟨256, 1, 0⟩ = 5 ∧ SRImplWide.rem 8 5 ⟨256, 1, 0⟩ = 0) :=
  ⟨by decide, one_is_identity 8 5 ⟨1, 1, 0⟩ ⟨256, 1, 0⟩ (by decide) (by decide) (by decide) (by decide)⟩

/-- C8: for every width, every valid divisor of that width and every
representable numerator, the division operator's result is at most the
numerator (results are `Nat`, hence also ≥ 0), in both macro variants; the
bound holds even where the quotient itself is inexact. -/
theorem div_le_numerator (w d n : Nat) (rd rd' : StrengthReduced)
    (hd : 1 ≤ d) (hdw : d < 2 ^ w) (_hn : n < 2 ^ w)
    (h1 : SRImpl.new w d = some rd) (h2 : SRImplWide.new w d = some rd') :
    SRImpl.div w n rd ≤ n ∧ SRImplWide.div w n rd' ≤ n := by
  have h2w : (0 : Nat) < 2 ^ w := Nat.pos_pow_of_pos _ (by norm_num)
  by_cases hd1 : d = 1
  · subst hd1
    rw [show SRImpl.new w 1 = some (⟨1, 1, 0⟩ : StrengthReduced) from rfl] at h1
    rw [show SRImplWide.new w 1 = some (⟨2 ^ w % 2 ^ (2 * w), 1, 0⟩ : StrengthReduced) from rfl] at h2
    injection h1 with h1e
    injection h2 with h2e
    subst h1e
    subst h2e
    exact ⟨SRImpl_div_le w n _ (by simp), SRImplWide_div_le w n _ (Nat.mod_le _ _)⟩
  · have hd2 : 2 ≤ d := by omega
    obtain ⟨hj1, hjlt, _⟩ := ceilLog2_spec d hd2
    have h0 : ¬d = 0 := by omega
    unfold SRImpl.new at h1
    unfold SRImplWide.new at h2
    rw [if_neg h0, if_neg hd1] at h1
    rw [if_neg h0, if_neg hd1] at h2
    injection h1 with h1e
    injection h2 with h2e
    subst h1e
    subst h2e
    constructor
    · apply SRImpl_div_le
      show (2 ^ (trailingZeros (nextPowerOfTwo d) + w - 1) % 2 ^ (2 * w) + d - 1) / d % 2 ^ w
        ≤ 2 ^ (trailingZeros (nextPowerOfTwo d) + w - 1)
      have hs : w ≤ trailingZeros (nextPowerOfTwo d) + w - 1 := by omega
      exact le_of_lt (lt_of_lt_of_le (Nat.mod_lt _ h2w) (Nat.pow_le_pow_right (by norm_num) hs))
    · apply SRImplWide_div_le
      show (2 ^ (trailingZeros (nextPowerOfTwo d) + w - 1) % 2 ^ (2 * w) + d - 1) / d ≤ 2 ^ w
      set j := trailingZeros (nextPowerOfTwo d) with hjdef
      have hjw : j ≤ w := by
        by_contra hcon
        push_neg at hcon
        have hcmp : (2 : Nat) ^ w ≤ 2 ^ (j - 1) := Nat.pow_le_pow_right (by norm_num) (by omega)
        omega
      have hexp : j + w - 1 < 2 * w := by omega
      have hmod : (2 : Nat) ^ (j + w - 1) % 2 ^ (2 * w) = 2 ^ (j + w - 1) :=
        Nat.mod_eq_of_lt (Nat.pow_lt_pow_right (by norm_num) hexp)
      rw [hmod]
      have hsplit : (2 : Nat) ^ (j + w - 1) = 2 ^ (j - 1) * 2 ^ w := by
        rw [← pow_add]
        congr 1
        omega
      have hb : (2 : Nat) ^ (j - 1) ≤ d - 1 := by omega
      have hnum : 2 ^ (j + w - 1) + d - 1 < 2 ^ w * d := by
        have hmul : (2 : Nat) ^ (j - 1) * 2 ^ w ≤ (d - 1) * 2 ^ w := Nat.mul_le_mul_right _ hb
        have hdm : (d - 1) * 2 ^ w + 2 ^ w = d * 2 ^ w := by
          have hpred : (d - 1) + 1 = d := by omega
          calc (d - 1) * 2 ^ w + 2 ^ w = ((d - 1) + 1) * 2 ^ w := by ring
            _ = d * 2 ^ w := by rw [hpred]
        have hdlt : d - 1 < 2 ^ w := by omega
        calc 2 ^ (j + w - 1) + d - 1 = 2 ^ (j - 1) * 2 ^ w + (d - 1) := by rw [hsplit]; omega
          _ ≤ (d - 1) * 2 ^ w + (d - 1) := by omega
          _ < (d - 1) * 2 ^ w + 2 ^ w := by omega
          _ = d * 2 ^ w := hdm
          _ = 2 ^ w * d := Nat.mul_comm _ _
      exact le_of_lt ((Nat.div_lt_iff_lt_mul (by omega)).mpr hnum)

/-- Witness for `div_le_numerator` at width 8, divisor 39, numerator 233. -/
theorem div_le_numerator_witness :
    ((1 : Nat) ≤ 39 ∧ (39 : Nat) < 2 ^ 8 ∧ (233 : Nat) < 2 ^ 8 ∧
      SRImpl.new 8 39 = some ⟨211, 39, 13⟩ ∧ SRImplWide.new 8 39 = some ⟨211, 39, 5⟩) ∧
    (SRImpl.div 8 233 ⟨211, 39, 13⟩ ≤ 233 ∧ SRImplWide.div 8 233 ⟨211, 39, 5⟩ ≤ 233) :=
  ⟨by decide, div_le_numerator 8 39 233 ⟨211, 39, 13⟩ ⟨211, 39, 5⟩
    (by decide) (by decide) (by decide) (by decide) (by decide)⟩

/-- C7: boundary behaviour at divisor MAX for each of the four widths:
numerator MAX yields quotient 1 and remainder 0, and numerator MAX - 1 yields
quotient 0 and remainder MAX - 1 (the pointer-width type aliases one of
these). This corner of the algorithm is unaffected by the rounding defect. -/
theorem boundary_divisor_max :
    ((StrengthReducedU8.new 255).map (fun rd =>
        (StrengthReducedU8.div 255 rd, StrengthReducedU8.rem 255 rd,
         StrengthReducedU8.div 254 rd, StrengthReducedU8.rem 254 rd)) = some (1, 0, 0, 254)) ∧
    ((StrengthReducedU16.new 65535).map (fun rd =>
        (StrengthReducedU16.div 65535 rd, StrengthReducedU16.rem 65535 rd,
         StrengthReducedU16.div 65534 rd, StrengthReducedU16.rem 65534 rd)) = some (1, 0, 0, 65534)) ∧
    ((StrengthReducedU32.new 4294967295).map (fun rd =>
        (StrengthReducedU32.div 4294967295 rd, StrengthReducedU32.rem 4294967295 rd,
         StrengthReducedU32.div 4294967294 rd, StrengthReducedU32.rem 4294967294 rd)) = some (1, 0, 0, 4294967294)) ∧
    ((StrengthReducedU64.new 18446744073709551615).map (fun rd =>
        (StrengthReducedU64.div 18446744073709551615 rd, StrengthReducedU64.rem 18446744073709551615 rd,
         StrengthReducedU64.div 18446744073709551614 rd, StrengthReducedU64.rem 18446744073709551614 rd))
      = some (1, 0, 0, 18446744073709551614)) := by decide
